import Mathlib

/-!
Verification development for the word2dita HTML-cleaning pipeline.

The JavaScript source (htmlUtils: cleanHtml, processTables, generateCalsRows,
addListLevelClasses, convertMsoListToNestedLists, bufferToList, getListType,
cleanHeadingTags, restoreDitaTags, formatHtml) is shallowly embedded below.
Pure functions become Lean functions; the DOM is embedded as a rose tree of
nodes; regex string rewriting is embedded at the level of the tag/text token
sequence that the source itself manipulates; JavaScript floating point
arithmetic on CSS lengths is embedded as exact rational arithmetic (all unit
factors in the source are short decimal literals, and every concrete input
used below is exactly representable, so the embedded arithmetic agrees with
the source on those inputs).
-/

/-! ### Character and string helpers

Executable replacements for the JavaScript string primitives used by the
source (trim, toLowerCase, substring search, whitespace collapse). They are
written over character lists so that concrete witnesses reduce inside the
kernel. -/

def isWsChar (c : Char) : Bool :=
  c = ' ' || c = '\t' || c = '\n' || c = '\r' || c = '\x0b' || c = '\x0c'

/-- Embeds the JavaScript String.prototype.trim (also the .trim() calls the
source applies to markers and cell content). -/
def trimChars (s : String) : String :=
  String.mk (((s.toList.dropWhile isWsChar).reverse.dropWhile isWsChar).reverse)

def lowerChar (c : Char) : Char :=
  if 'A' ≤ c && c ≤ 'Z' then Char.ofNat (c.toNat + 32) else c

/-- Embeds String.prototype.toLowerCase for the ASCII unit names the source
lowercases. -/
def lowerStr (s : String) : String := String.mk (s.toList.map lowerChar)

def containsSubL : List Char → List Char → Bool
  | _, [] => true
  | [], _ => false
  | l@(_ :: rest), pat => pat.isPrefixOf l || containsSubL rest pat

/-- Embeds JavaScript String.prototype.includes / the regex test
style.includes(sub) used throughout the source. -/
def containsSub (s pat : String) : Bool := containsSubL s.toList pat.toList

def collapseWsL : List Char → Bool → List Char
  | [], _ => []
  | c :: rest, prevWs =>
    if isWsChar c then
      if prevWs then collapseWsL rest true else ' ' :: collapseWsL rest true
    else c :: collapseWsL rest false

/-- Embeds the pervasive replace of whitespace runs by a single space
(the source's replace of one-or-more whitespace characters with a space). -/
def collapseWs (s : String) : String := String.mk (collapseWsL s.toList false)

def natOfDigits (l : List Char) : Nat :=
  l.foldl (fun a c => a * 10 + (c.toNat - 48)) 0

/-! ### Table Transformer: data model

A table cell after attribute parsing: the source reads rowspan/colspan with
parseInt(attr or "1") so a cell carries two natural numbers. Cell content
plays no role in the grid geometry claims and is carried as an opaque
already-extracted string. -/

structure Cell where
  rowspan : Nat
  colspan : Nat
  content : String := ""
  deriving Repr, DecidableEq

/-- One emitted dita-entry: its grid position and spans plus the span
attributes the source prints (morerows when rowspan exceeds one, a
namest/nameend column-name range when colspan exceeds one). Padding entries
emitted by the fill-up loop have rowspan = colspan = 1 and no attributes. -/
structure Entry where
  row : Nat
  col : Nat
  rowspan : Nat
  colspan : Nat
  morerows : Option Nat
  namest : Option String
  nameend : Option String
  deriving Repr, DecidableEq

/-- Column names col1, col2, ... as built by the source's colNames array. -/
def colName (i : Nat) : String := "col" ++ toString (i + 1)

/-- Indexing the colNames array of length colCount: a JavaScript
out-of-range access yields undefined, which string interpolation prints as
the text undefined. -/
def colNameAt (colCount i : Nat) : String :=
  if i < colCount then colName i else "undefined"

/-- Grid positions covered when the source marks the occupancy matrix for a
cell at (r, c) with spans rs, cs: all (r + i, c + j) with i < rs, j < cs. -/
def marks (r c rs cs : Nat) : Finset (Nat × Nat) :=
  (Finset.range rs ×ˢ Finset.range cs).image fun p => (r + p.1, c + p.2)

def firstFreeAux : Nat → Finset (Nat × Nat) → Nat → Nat → Nat
  | 0, _, _, c => c
  | fuel + 1, occ, r, c => if (r, c) ∈ occ then firstFreeAux fuel occ r (c + 1) else c

/-- Embeds the source's while loop skipping occupied grid slots (while
occupied[rowIndex][col] is set, advance col). The loop makes at most
occ.card steps, so occ.card + 1 units of fuel reproduce it exactly. -/
def firstFree (occ : Finset (Nat × Nat)) (r c : Nat) : Nat :=
  firstFreeAux (occ.card + 1) occ r c

/-- The entry emitted for a placed cell: grid position, spans, and the span
attributes exactly as the source prints them. -/
def cellEntry (colCount rowIndex c0 : Nat) (cell : Cell) : Entry :=
  { row := rowIndex, col := c0, rowspan := cell.rowspan, colspan := cell.colspan
    morerows := if 1 < cell.rowspan then some (cell.rowspan - 1) else none
    namest := if 1 < cell.colspan then some (colNameAt colCount c0) else none
    nameend := if 1 < cell.colspan then
      some (colNameAt colCount (c0 + cell.colspan - 1)) else none }

/-- An empty attribute-free entry emitted by the fill-up loop. -/
def padEntry (rowIndex c0 : Nat) : Entry :=
  { row := rowIndex, col := c0, rowspan := 1, colspan := 1
    morerows := none, namest := none, nameend := none }

/-- Cell loop of generateCalsRows for one row: place each cell at the first
unoccupied column, record its span attributes, mark the occupancy matrix,
and advance the column cursor by the colspan. Returns the emitted entries,
the final column cursor, and the updated occupancy matrix. -/
def processCells (colCount rowIndex : Nat) :
    List Cell → Nat → Finset (Nat × Nat) → List Entry × Nat × Finset (Nat × Nat)
  | [], col, occ => ([], col, occ)
  | cell :: cs, col, occ =>
    let c0 := firstFree occ rowIndex col
    let occ2 := occ ∪ marks rowIndex c0 cell.rowspan cell.colspan
    let rest := processCells colCount rowIndex cs (c0 + cell.colspan) occ2
    (cellEntry colCount rowIndex c0 cell :: rest.1, rest.2)

/-- Fill-up loop of generateCalsRows: while the column cursor is short of
the column count, emit an empty single-slot entry. -/
def padRow (rowIndex col colCount : Nat) : List Entry :=
  (List.range (colCount - col)).map fun j => padEntry rowIndex (col + j)

def processRowsAux (colCount : Nat) :
    List (List Cell) → Nat → Finset (Nat × Nat) → List (List Entry)
  | [], _, _ => []
  | r :: rs, ri, occ =>
    let res := processCells colCount ri r 0 occ
    (res.1 ++ padRow ri res.2.1 colCount) :: processRowsAux colCount rs (ri + 1) res.2.2

/-- Embeds generateCalsRows: rows are processed in order against one shared
occupancy matrix (initially empty), each row's entries are followed by the
fill-up padding. -/
def generateCalsRows (rows : List (List Cell)) (colCount : Nat) : List (List Entry) :=
  processRowsAux colCount rows 0 ∅

/-- An emitted entry covers the grid position (r, c) when the position falls
inside its row-span times column-span rectangle. -/
def Entry.covers (e : Entry) (r c : Nat) : Bool :=
  decide (e.row ≤ r ∧ r < e.row + e.rowspan ∧ e.col ≤ c ∧ c < e.col + e.colspan)

def rowCoverCount (row : List Entry) (r c : Nat) : Nat :=
  (row.filter fun e => e.covers r c).length

/-- Number of emitted cells of the whole emitted grid covering position
(r, c). -/
def coverCount (out : List (List Entry)) (r c : Nat) : Nat :=
  (out.map fun row => rowCoverCount row r c).sum

/-- Sum of the column-spans of one row (each cell defaults to colspan 1 at
parse time, so the sum is over the parsed colspan fields). -/
def rowColspans (r : List Cell) : Nat := (r.map Cell.colspan).sum

/-- Embeds the colCount computation of processTables: zero when the table
has no tr at all, otherwise the running maximum over all rows of the sum of
colspans. -/
def colCountOf (rows : List (List Cell)) : Nat :=
  if rows.isEmpty then 0
  else rows.foldl (fun m r => max m (rowColspans r)) 0

/-- A native table as the table transformer sees it: the rows of its header
section and the rows of its body section (the source splits them via
thead/tbody queries; the column count is computed over all rows). -/
structure HtmlTable where
  headRows : List (List Cell)
  bodyRows : List (List Cell)
  deriving Repr, DecidableEq

structure Colspec where
  colnum : Nat
  colname : String
  deriving Repr, DecidableEq

/-- The emitted dita-tgroup of a converted table: the cols attribute, one
colspec per column, and the converted head and body row groups (each group
is emitted only when it has rows, and each group gets a fresh occupancy
matrix, exactly as the source calls generateCalsRows twice). Column width
resolution only decorates the colspec elements and is not modelled. -/
structure TGroup where
  cols : Nat
  colspecs : List Colspec
  thead : Option (List (List Entry))
  tbody : Option (List (List Entry))
  deriving Repr, DecidableEq

/-- Embeds the per-table body of processTables: compute the column count
over all rows; when it is zero the table is skipped (none), otherwise the
CALS structure is emitted. -/
def processTable (t : HtmlTable) : Option TGroup :=
  let all := t.headRows ++ t.bodyRows
  let n := colCountOf all
  if n = 0 then none
  else some
    { cols := n
      colspecs := (List.range n).map fun i => ⟨i + 1, colName i⟩
      thead := if t.headRows.isEmpty then none else some (generateCalsRows t.headRows n)
      tbody := if t.bodyRows.isEmpty then none else some (generateCalsRows t.bodyRows n) }

/-- The effect of processTables on one table element: either the original
table is left in place untouched (the early return when colCount is zero)
or its markup is replaced by the emitted tgroup. -/
def transformTable (t : HtmlTable) : HtmlTable ⊕ TGroup :=
  match processTable t with
  | none => Sum.inl t
  | some g => Sum.inr g

/-- The column count the specification describes: the maximum, over all
rows, of the sum of the column-spans of the row's cells. Written from the
spec's words, to be compared with colCountOf. -/
def specMaxColspanSum (t : HtmlTable) : Nat :=
  ((t.headRows ++ t.bodyRows).map rowColspans).foldr max 0


/-! ### Table Transformer: lemmas -/

theorem firstFree_eq_of_not_mem (occ : Finset (Nat × Nat)) (r c : Nat)
    (h : (r, c) ∉ occ) : firstFree occ r c = c := by
  simp [firstFree, firstFreeAux, h]

theorem mem_marks {r c rs cs x y : Nat} :
    (x, y) ∈ marks r c rs cs ↔ r ≤ x ∧ x < r + rs ∧ c ≤ y ∧ y < c + cs := by
  simp only [marks, Finset.mem_image, Finset.mem_product, Finset.mem_range]
  constructor
  · rintro ⟨⟨i, j⟩, ⟨hi, hj⟩, h⟩
    simp only [Prod.mk.injEq] at h
    omega
  · rintro ⟨h1, h2, h3, h4⟩
    exact ⟨(x - r, y - c), ⟨by omega, by omega⟩, by simp; omega⟩

theorem covers_cellEntry (colCount ri c0 : Nat) (cell : Cell) (r c : Nat) :
    (cellEntry colCount ri c0 cell).covers r c
      = decide (ri ≤ r ∧ r < ri + cell.rowspan ∧ c0 ≤ c ∧ c < c0 + cell.colspan) := by
  simp [cellEntry, Entry.covers]

theorem covers_padEntry (ri c0 r c : Nat) :
    (padEntry ri c0).covers r c = decide (r = ri ∧ c = c0) := by
  simp only [padEntry, Entry.covers, decide_eq_decide]
  omega

theorem rowCoverCount_cons (e : Entry) (l : List Entry) (r c : Nat) :
    rowCoverCount (e :: l) r c = (if e.covers r c then 1 else 0) + rowCoverCount l r c := by
  simp only [rowCoverCount, List.filter_cons]
  split <;> simp [Nat.add_comm]

theorem rowCoverCount_append (l1 l2 : List Entry) (r c : Nat) :
    rowCoverCount (l1 ++ l2) r c = rowCoverCount l1 r c + rowCoverCount l2 r c := by
  simp [rowCoverCount, List.filter_append]

theorem count_range_shift (c a : Nat) :
    ∀ n : Nat, ((List.range n).filter fun j => decide (c = a + j)).length
      = if a ≤ c ∧ c < a + n then 1 else 0 := by
  intro n
  induction n with
  | zero =>
    rw [if_neg (by omega)]
    simp
  | succ n ih =>
    rw [List.range_succ, List.filter_append, List.length_append, ih]
    by_cases h : c = a + n
    · rw [if_neg (by omega), if_pos (by omega)]
      simp [h]
    · have hz : (List.filter (fun j => decide (c = a + j)) [n]).length = 0 := by
        simp [h]
      rw [hz, Nat.add_zero]
      by_cases h2 : a ≤ c ∧ c < a + n
      · rw [if_pos h2, if_pos (by omega)]
      · rw [if_neg h2, if_neg (by omega)]

theorem rowCoverCount_padRow (ri col colCount r2 c2 : Nat) :
    rowCoverCount (padRow ri col colCount) r2 c2
      = if r2 = ri ∧ col ≤ c2 ∧ c2 < colCount then 1 else 0 := by
  simp only [rowCoverCount, padRow, List.filter_map, List.length_map, Function.comp_def,
    covers_padEntry]
  by_cases hr : r2 = ri
  · subst hr
    have h1 : ∀ j : Nat, (decide (r2 = r2 ∧ c2 = col + j)) = decide (c2 = col + j) := by
      intro j; simp
    simp only [h1, true_and]
    rw [count_range_shift c2 col (colCount - col)]
    by_cases h : col ≤ c2 ∧ c2 < colCount
    · rw [if_pos (by omega), if_pos h]
    · rw [if_neg (by omega), if_neg h]
  · have h1 : ∀ j : Nat, (decide (r2 = ri ∧ c2 = col + j)) = false := by
      intro j; simp [hr]
    simp [h1, hr]

theorem if_covers_cellEntry (colCount ri c0 : Nat) (cell : Cell) (r c : Nat) :
    (if (cellEntry colCount ri c0 cell).covers r c then (1 : Nat) else 0)
      = if ri ≤ r ∧ r < ri + cell.rowspan ∧ c0 ≤ c ∧ c < c0 + cell.colspan then 1 else 0 := by
  rw [covers_cellEntry]
  by_cases h : ri ≤ r ∧ r < ri + cell.rowspan ∧ c0 ≤ c ∧ c < c0 + cell.colspan
  · simp [h]
  · simp [h]

theorem processCells_spec (colCount ri : Nat) :
    ∀ (cs : List Cell) (col : Nat) (occ : Finset (Nat × Nat)),
    (∀ cl ∈ cs, cl.rowspan = 1 ∧ 1 ≤ cl.colspan) →
    (∀ c2, col ≤ c2 → (ri, c2) ∉ occ) →
    (processCells colCount ri cs col occ).2.1 = col + rowColspans cs ∧
    (∀ x y, (x, y) ∈ (processCells colCount ri cs col occ).2.2 ↔
        (x, y) ∈ occ ∨ (x = ri ∧ col ≤ y ∧ y < col + rowColspans cs)) ∧
    (∀ c2, rowCoverCount (processCells colCount ri cs col occ).1 ri c2 =
        if col ≤ c2 ∧ c2 < col + rowColspans cs then 1 else 0) ∧
    (∀ r2 c2, r2 ≠ ri → rowCoverCount (processCells colCount ri cs col occ).1 r2 c2 = 0) := by
  intro cs
  induction cs with
  | nil =>
    intro col occ _ _
    refine ⟨by simp [processCells, rowColspans], ?_, ?_, ?_⟩
    · intro x y
      simp only [processCells, rowColspans, List.map_nil, List.sum_nil, Nat.add_zero]
      constructor
      · intro h; exact Or.inl h
      · rintro (h | h)
        · exact h
        · omega
    · intro c2
      rw [if_neg (by simp only [rowColspans, List.map_nil, List.sum_nil]; omega)]
      simp [processCells, rowCoverCount]
    · intro r2 c2 _
      simp [processCells, rowCoverCount]
  | cons cell cs ih =>
    intro col occ hcells hocc
    have hcell := hcells cell (by simp)
    have hff : firstFree occ ri col = col :=
      firstFree_eq_of_not_mem occ ri col (hocc col le_rfl)
    have hocc2 : ∀ c2, col + cell.colspan ≤ c2 →
        (ri, c2) ∉ occ ∪ marks ri col cell.rowspan cell.colspan := by
      intro c2 hc2
      simp only [Finset.mem_union, not_or]
      exact ⟨hocc c2 (by omega), by rw [mem_marks]; omega⟩
    obtain ⟨ih1, ih2, ih3, ih4⟩ :=
      ih (col + cell.colspan) (occ ∪ marks ri col cell.rowspan cell.colspan)
        (fun cl hcl => hcells cl (by simp [hcl])) hocc2
    have hunf : processCells colCount ri (cell :: cs) col occ =
        (cellEntry colCount ri col cell ::
          (processCells colCount ri cs (col + cell.colspan)
            (occ ∪ marks ri col cell.rowspan cell.colspan)).1,
          (processCells colCount ri cs (col + cell.colspan)
            (occ ∪ marks ri col cell.rowspan cell.colspan)).2) := by
      simp only [processCells, hff]
    rw [hunf]
    have hsum : rowColspans (cell :: cs) = cell.colspan + rowColspans cs := by
      simp [rowColspans]
    have hrs := hcell.1
    have hcs := hcell.2
    refine ⟨?_, ?_, ?_, ?_⟩
    · simp only [ih1, hsum]; omega
    · intro x y
      simp only [ih2 x y, Finset.mem_union, mem_marks, hsum]
      constructor
      · rintro ((h | h) | h)
        · exact Or.inl h
        · exact Or.inr (by omega)
        · exact Or.inr (by omega)
      · rintro (h | h)
        · exact Or.inl (Or.inl h)
        · by_cases hy : y < col + cell.colspan
          · exact Or.inl (Or.inr (by omega))
          · exact Or.inr (by omega)
    · intro c2
      rw [rowCoverCount_cons, ih3, if_covers_cellEntry, hsum]
      by_cases hA : ri ≤ ri ∧ ri < ri + cell.rowspan ∧ col ≤ c2 ∧ c2 < col + cell.colspan
      · rw [if_pos hA, if_neg (by omega), if_pos (by omega)]
      · rw [if_neg hA]
        by_cases hB : col + cell.colspan ≤ c2 ∧ c2 < col + cell.colspan + rowColspans cs
        · rw [if_pos hB, if_pos (by omega)]
        · rw [if_neg hB, if_neg (by omega)]
    · intro r2 c2 hr2
      rw [rowCoverCount_cons, ih4 r2 c2 hr2, covers_cellEntry]
      have : decide (ri ≤ r2 ∧ r2 < ri + cell.rowspan ∧ col ≤ c2 ∧ c2 < col + cell.colspan)
          = false := by
        simp only [decide_eq_false_iff_not]
        omega
      rw [this]
      simp

theorem coverCount_cons (row : List Entry) (rest : List (List Entry)) (r c : Nat) :
    coverCount (row :: rest) r c = rowCoverCount row r c + coverCount rest r c := by
  simp [coverCount]

theorem processRowsAux_spec (colCount : Nat) :
    ∀ (rows : List (List Cell)) (ri : Nat) (occ : Finset (Nat × Nat)),
    (∀ r ∈ rows, (∀ cl ∈ r, cl.rowspan = 1 ∧ 1 ≤ cl.colspan) ∧ rowColspans r ≤ colCount) →
    (∀ i c2, (i, c2) ∈ occ → i < ri) →
    (∀ j c2, j < rows.length → c2 < colCount →
        coverCount (processRowsAux colCount rows ri occ) (ri + j) c2 = 1) ∧
    (∀ r2 c2, r2 < ri → coverCount (processRowsAux colCount rows ri occ) r2 c2 = 0) := by
  intro rows
  induction rows with
  | nil =>
    intro ri occ _ _
    constructor
    · intro j _ hj _; simp at hj
    · intro r2 c2 _; simp [processRowsAux, coverCount]
  | cons r rs ih =>
    intro ri occ hrows hocc
    have hr := hrows r (by simp)
    have hocc0 : ∀ c2, 0 ≤ c2 → (ri, c2) ∉ occ := by
      intro c2 _ hmem
      exact absurd (hocc ri c2 hmem) (lt_irrefl ri)
    obtain ⟨hc1, hc2, hc3, hc4⟩ := processCells_spec colCount ri r 0 occ hr.1 hocc0
    have hunf : processRowsAux colCount (r :: rs) ri occ =
        ((processCells colCount ri r 0 occ).1 ++
            padRow ri (processCells colCount ri r 0 occ).2.1 colCount) ::
          processRowsAux colCount rs (ri + 1) (processCells colCount ri r 0 occ).2.2 := by
      simp only [processRowsAux]
    have hoccF : ∀ i c2, (i, c2) ∈ (processCells colCount ri r 0 occ).2.2 → i < ri + 1 := by
      intro i c2 hmem
      rw [hc2 i c2] at hmem
      rcases hmem with h | h
      · exact Nat.lt_succ_of_lt (hocc i c2 h)
      · omega
    obtain ⟨iha, ihb⟩ := ih (ri + 1) (processCells colCount ri r 0 occ).2.2
      (fun rr hrr => hrows rr (by simp [hrr])) hoccF
    have hrowCount : ∀ c2, c2 < colCount →
        rowCoverCount ((processCells colCount ri r 0 occ).1 ++
          padRow ri (processCells colCount ri r 0 occ).2.1 colCount) ri c2 = 1 := by
      intro c2 hlt
      rw [rowCoverCount_append, hc3, rowCoverCount_padRow, hc1, Nat.zero_add]
      by_cases hA : 0 ≤ c2 ∧ c2 < rowColspans r
      · rw [if_pos hA, if_neg (by omega)]
      · rw [if_neg hA, if_pos (by omega)]
    have hrowOther : ∀ r2 c2, r2 ≠ ri →
        rowCoverCount ((processCells colCount ri r 0 occ).1 ++
          padRow ri (processCells colCount ri r 0 occ).2.1 colCount) r2 c2 = 0 := by
      intro r2 c2 hne
      rw [rowCoverCount_append, hc4 r2 c2 hne, rowCoverCount_padRow,
        if_neg (by intro h; exact hne h.1)]
    rw [hunf]
    constructor
    · intro j c2 hj hlt
      rw [coverCount_cons]
      cases j with
      | zero =>
        rw [Nat.add_zero, hrowCount c2 hlt, ihb ri c2 (Nat.lt_succ_self ri)]
      | succ j =>
        rw [hrowOther (ri + (j + 1)) c2 (by omega)]
        have := iha j c2 (by simpa using hj) hlt
        rw [Nat.zero_add]
        rw [show ri + (j + 1) = ri + 1 + j by omega]
        exact this
    · intro r2 c2 hlt
      rw [coverCount_cons, hrowOther r2 c2 (by omega), ihb r2 c2 (by omega)]

/-- Concrete table used to settle C1: two rows, the second cell of the first
row spans two rows, the second row has a single cell. Column count is 2. -/
def c1Table : List (List Cell) :=
  [[{ rowspan := 1, colspan := 1, content := "a" },
    { rowspan := 2, colspan := 1, content := "b" }],
   [{ rowspan := 1, colspan := 1, content := "c" }]]

/-- C1 counterexample: the claim asserts that after merged-cell resolution
every logical (row, column) position is covered by exactly one emitted cell
(padding included, no overlaps). On the concrete table c1Table the cell with
rowspan 2 covers position (1, 1), and the fill-up loop of generateCalsRows
nevertheless emits an empty padding cell at that same position, because the
padding loop does not consult the occupancy matrix: position (1, 1) is
covered by two emitted cells, not one. -/
theorem C1_counterexample :
    coverCount (generateCalsRows c1Table (colCountOf c1Table)) 1 1 = 2 := by decide

/-- C1 amended: when no cell spans more than one row (all rowspans are 1)
and the column count bounds every row's colspan sum — as it does for the
column count processTables computes — every logical (row, column) position
of the emitted grid is covered by exactly one emitted cell: cells are placed
at the first unoccupied column, and rows falling short of the column count
are padded with empty cells, with no gaps and no overlaps. -/
theorem C1_amended (rows : List (List Cell)) (colCount : Nat)
    (hcells : ∀ r ∈ rows, ∀ cl ∈ r, cl.rowspan = 1 ∧ 1 ≤ cl.colspan)
    (hsum : ∀ r ∈ rows, rowColspans r ≤ colCount)
    (i c : Nat) (hi : i < rows.length) (hc : c < colCount) :
    coverCount (generateCalsRows rows colCount) i c = 1 := by
  have h := (processRowsAux_spec colCount rows 0 ∅
    (fun r hr => ⟨hcells r hr, hsum r hr⟩) (by simp)).1 i c hi hc
  simpa [generateCalsRows] using h

/-- Witness for C1_amended at a concrete rowspan-free table: a 2-column
table whose second row has a single colspan-2 cell. -/
theorem C1_amended_witness :
    coverCount (generateCalsRows
      [[{ rowspan := 1, colspan := 1, content := "a" },
        { rowspan := 1, colspan := 1, content := "b" }],
       [{ rowspan := 1, colspan := 2, content := "c" }]] 2) 1 1 = 1 :=
  C1_amended _ 2 (by decide) (by decide) 1 1 (by decide) (by decide)

theorem foldl_max_map (f : List Cell → Nat) :
    ∀ (l : List (List Cell)) (a : Nat),
      l.foldl (fun m r => max m (f r)) a = max a ((l.map f).foldr max 0) := by
  intro l
  induction l with
  | nil => intro a; simp
  | cons x l ih =>
    intro a
    simp only [List.foldl_cons, List.map_cons, List.foldr_cons, ih (max a (f x))]
    rw [Nat.max_assoc]

/-- C5: whenever processTables emits a converted table (which it does
exactly when the computed column count is positive), the cols attribute of
the emitted tgroup and the number of generated colspec elements both equal
the maximum, over all rows of the table, of the sum of the cells'
column-spans (missing colspan attributes having been parsed as 1). -/
theorem C5_column_count (t : HtmlTable) (g : TGroup)
    (hrows : t.headRows ++ t.bodyRows ≠ [])
    (h : processTable t = some g) :
    g.cols = specMaxColspanSum t ∧ g.colspecs.length = specMaxColspanSum t := by
  have hmax : colCountOf (t.headRows ++ t.bodyRows) = specMaxColspanSum t := by
    rw [colCountOf, if_neg (by simpa [List.isEmpty_iff] using hrows), specMaxColspanSum,
      foldl_max_map rowColspans (t.headRows ++ t.bodyRows) 0]
    simp
  rw [processTable] at h
  by_cases hz : colCountOf (t.headRows ++ t.bodyRows) = 0
  · rw [if_pos hz] at h
    exact absurd h (by simp)
  · rw [if_neg hz] at h
    have hg := (Option.some_inj.mp h).symm
    rw [hg]
    exact ⟨hmax, by simpa using hmax⟩

/-- Two-row body table used as the C5 witness input: the first row is one
colspan-2 cell and the second row two ordinary cells. -/
def c5Table : HtmlTable :=
  ⟨[], [[{ rowspan := 1, colspan := 2, content := "" }],
        [{ rowspan := 1, colspan := 1, content := "" },
         { rowspan := 1, colspan := 1, content := "" }]]⟩

/-- The tgroup processTables emits for c5Table. -/
def c5Group : TGroup :=
  { cols := 2, colspecs := [⟨1, "col1"⟩, ⟨2, "col2"⟩], thead := none,
    tbody := some (generateCalsRows c5Table.bodyRows 2) }

/-- Witness for C5_column_count at the concrete table c5Table. -/
theorem C5_column_count_witness :
    c5Group.cols = specMaxColspanSum c5Table ∧
      c5Group.colspecs.length = specMaxColspanSum c5Table :=
  C5_column_count c5Table c5Group (by decide) (by decide)

/-- C10: a table containing no row elements has computed column count 0, so
processTables skips it via the early return and the original table element
is left entirely unchanged; no converted-table markup is emitted for it. -/
theorem C10_empty_table_skipped (t : HtmlTable)
    (hh : t.headRows = []) (hb : t.bodyRows = []) :
    transformTable t = Sum.inl t := by
  obtain ⟨th, tb⟩ := t
  simp only at hh hb
  subst hh
  subst hb
  rfl

/-- Witness for C10_empty_table_skipped at the concrete rowless table. -/
theorem C10_empty_table_skipped_witness :
    transformTable ⟨[], []⟩ = Sum.inl (⟨[], []⟩ : HtmlTable) :=
  C10_empty_table_skipped ⟨[], []⟩ rfl rfl

/-! ### Error-handling structure of the transformation entry point

cleanHtml in the source reassigns one html variable through a sequence of
stages inside a single try block whose catch returns the current value of
that variable; each individual stage additionally wraps its own body in a
try/catch that returns the stage's input unchanged. A stage is embedded as
a function that either returns a new string or signals an internal failure. -/

def Stage : Type := String → Except Unit String

/-- Embeds the top-level try block of cleanHtml: stages run in order,
updating the running string; when a stage signals a failure the catch
clause returns the last successfully assigned value and no later stage
runs. The function is total, so the entry point never raises. -/
def runStages : List Stage → String → String
  | [], h => h
  | f :: fs, h =>
    match f h with
    | Except.ok h2 => runStages fs h2
    | Except.error _ => h

/-- Runs a prefix of stages, succeeding only if all of them do. -/
def applyOk : List Stage → String → Option String
  | [], h => some h
  | f :: fs, h =>
    match f h with
    | Except.ok h2 => applyOk fs h2
    | Except.error _ => none

/-- Embeds the per-stage try/catch the source puts inside each sub-pass
(for example cleanSelectiveStyles, processTables, formatHtml): an internal
failure makes the stage return its own input unchanged. -/
def tryStage (g : Stage) (h : String) : String :=
  match g h with
  | Except.ok y => y
  | Except.error _ => h

theorem runStages_all_ok :
    ∀ (fs : List Stage) (h h2 : String), applyOk fs h = some h2 → runStages fs h = h2 := by
  intro fs
  induction fs with
  | nil => intro h h2 hok; simpa [applyOk, runStages] using hok
  | cons f fs ih =>
    intro h h2 hok
    rw [applyOk] at hok
    rw [runStages]
    cases hf : f h with
    | ok h3 => rw [hf] at hok; exact ih h3 h2 hok
    | error e => rw [hf] at hok; exact absurd hok (by simp)

/-- C6: the transformation entry point never raises (runStages is a total
function); if every stage before some failing stage succeeds, the entry
point returns the string produced by those earlier stages — the last
successfully processed value — and a sub-stage whose body fails returns its
own input unchanged, so downstream stages still receive the prior text. -/
theorem C6_error_recovery (fs gs : List Stage) (f g : Stage) (h h2 : String)
    (hok : applyOk fs h = some h2)
    (hfail : f h2 = Except.error ())
    (hgfail : g h2 = Except.error ()) :
    runStages (fs ++ f :: gs) h = h2 ∧ tryStage g h2 = h2 := by
  constructor
  · induction fs generalizing h with
    | nil =>
      simp only [applyOk] at hok
      cases hok
      rw [List.nil_append, runStages, hfail]
    | cons f0 fs ih =>
      rw [applyOk] at hok
      rw [List.cons_append, runStages]
      cases hf : f0 h with
      | ok h3 => rw [hf] at hok; exact ih h3 hok
      | error e => rw [hf] at hok; exact absurd hok (by simp)
  · rw [tryStage, hgfail]

/-- Witness for C6_error_recovery: one succeeding stage followed by a
failing stage; the pipeline returns the succeeding stage's output. -/
theorem C6_error_recovery_witness :
    runStages [fun s => Except.ok (s ++ "!"), fun _ => Except.error ()] "x" = "x!" ∧
      tryStage (fun _ => Except.error ()) "x!" = "x!" :=
  C6_error_recovery [fun s => Except.ok (s ++ "!")] []
    (fun _ => Except.error ()) (fun _ => Except.error ()) "x" "x!" rfl rfl rfl

/-! ### List Reconstructor: nesting-level inference (addListLevelClasses)

The source scans all paragraphs whose inline style carries an mso-list
declaration, collecting left-margin magnitudes (a JavaScript Set of numbers,
i.e. a deduplicated insertion-ordered list) and, per paragraph, the explicit
level number of the marker style. A paragraph is embedded by the data the
regexes extract: an optional margin length and an optional explicit level.
The output is, per paragraph, the list-level class the pass attaches (none
when the paragraph is left unchanged). -/

structure CssLen where
  value : ℚ
  unit : String
  deriving Repr, DecidableEq

structure MsoPara where
  margin : Option CssLen
  level : Option Nat
  deriving Repr, DecidableEq

inductive Para where
  | mso (p : MsoPara)
  | plain
  deriving Repr, DecidableEq

/-- Embeds parseLengthToPt: converts a CSS length to points with the
source's factors (in 72, cm 28.3465, mm 2.83465, pc 12, px 0.75, anything
else including pt and percent passes the value through). -/
def parseLengthToPt (v : ℚ) (unit : String) : ℚ :=
  let u := lowerStr unit
  if u = "in" then v * 72
  else if u = "cm" then v * 28.3465
  else if u = "mm" then v * 2.83465
  else if u = "pc" then v * 12
  else if u = "px" then v * 0.75
  else v

/-- Margin magnitude collected for one mso-list paragraph: the parsed
margin-left, or 0 when the style carries no margin-left (the source adds 0
to the set in that case and looks a missing margin up as 0). -/
def marginPtOf (p : MsoPara) : ℚ :=
  match p.margin with
  | some l => parseLengthToPt l.value l.unit
  | none => 0

/-- JavaScript Set.add: dedup, insertion order kept. -/
def addUnique (l : List ℚ) (q : ℚ) : List ℚ := if q ∈ l then l else l ++ [q]

/-- One step of the first scan: an mso-list paragraph contributes its
margin magnitude to the set, any other paragraph contributes nothing. -/
def collectStep (s : List ℚ) (p : Para) : List ℚ :=
  match p with
  | Para.mso m => addUnique s (marginPtOf m)
  | Para.plain => s

def collectMargins (ps : List Para) : List ℚ := ps.foldl collectStep []

/-- Ascending numeric sort of the collected distinct margins (the source's
Array.from(set).sort with a numeric comparator). -/
def sortAsc (l : List ℚ) : List ℚ := l.insertionSort (fun a b => a ≤ b)

/-- Embeds margin.toFixed(4) used as the map key: the margin rounded to
four decimal places (two margins collide exactly when these keys agree). -/
def key4 (q : ℚ) : ℤ := ⌊q * 10000 + 1/2⌋

/-- Embeds building the rank map (forEach over the sorted margins storing
index + 1 under the toFixed(4) key, later writes overwriting earlier ones)
followed by one lookup: the rank returned for key k is index + 1 of the
last sorted margin whose key is k. -/
def rankLookup : List ℚ → Nat → ℤ → Option Nat
  | [], _, _ => none
  | m :: ms, i, k =>
    match rankLookup ms (i + 1) k with
    | some r => some r
    | none => if key4 m = k then some (i + 1) else none

/-- Embeds addListLevelClasses: when more than one distinct margin
magnitude was collected, every mso-list paragraph gets the class for the
rank of its margin (default 1 when the lookup misses); otherwise each
paragraph gets its explicit level as class when present and is left
unchanged when not. Paragraphs without an mso-list style are never
touched. -/
def addListLevelClasses (ps : List Para) : List (Option Nat) :=
  let ms := collectMargins ps
  if 1 < ms.length then
    let sorted := sortAsc ms
    ps.map fun p =>
      match p with
      | Para.mso m => some ((rankLookup sorted 0 (key4 (marginPtOf m))).getD 1)
      | Para.plain => none
  else
    ps.map fun p =>
      match p with
      | Para.mso m => m.level
      | Para.plain => none

/-- Two mso-list paragraphs: one without margin-left (collected as margin
0) and one with margin-left 0.00001pt. The two margins are distinct, so the
margin branch is taken, but their toFixed(4) keys coincide. -/
def c4Paras : List Para :=
  [Para.mso ⟨none, none⟩, Para.mso ⟨some ⟨1/100000, "pt"⟩, none⟩]

theorem c4_margins : collectMargins c4Paras = [0, 1/100000] := by
  have hp : parseLengthToPt (1/100000) "pt" = 1/100000 := rfl
  simp only [collectMargins, c4Paras, List.foldl_cons, List.foldl_nil, collectStep,
    marginPtOf, hp]
  rw [show addUnique [] 0 = [0] from rfl, addUnique, if_neg (by norm_num)]
  rfl

theorem c4_eval :
    addListLevelClasses c4Paras = [some 2, some 2] := by
  have hs : sortAsc [0, 1/100000] = [0, 1/100000] := by
    simp only [sortAsc, List.insertionSort, List.orderedInsert]
    rw [if_pos (by norm_num)]
  have hk0 : key4 0 = 0 := by norm_num [key4]
  have hk1 : key4 (1/100000) = 0 := by
    rw [key4, show (1 : ℚ)/100000 * 10000 + 1/2 = 3/5 by norm_num]
    rw [Int.floor_eq_iff]
    norm_num
  have hrank : rankLookup [0, 1/100000] 0 0 = some 2 := by
    simp only [rankLookup, hk0, hk1, if_pos]
  rw [addListLevelClasses, c4_margins]
  rw [if_pos (by simp), hs]
  simp only [c4Paras, List.map_cons, List.map_nil, marginPtOf]
  rw [show parseLengthToPt (1/100000) "pt" = 1/100000 from rfl]
  rw [hk0, hk1, hrank]
  rfl

/-- C4 counterexample: on two mso-list paragraphs whose distinct margins
(0 and 0.00001pt) round to the same four-decimal key, the claim's tie rule
predicts one collapsed rank, i.e. class level 1 for both; the code instead
stores rank 2 under the shared key (last write wins, no renumbering) and
assigns level 2 to both paragraphs. -/
theorem C4_counterexample :
    addListLevelClasses c4Paras = [some 2, some 2] ∧
      addListLevelClasses c4Paras ≠ [some 1, some 1] :=
  ⟨c4_eval, by rw [c4_eval]; simp⟩

theorem mem_addUnique (l : List ℚ) (q x : ℚ) : x ∈ addUnique l q ↔ x ∈ l ∨ x = q := by
  rw [addUnique]
  by_cases h : q ∈ l
  · rw [if_pos h]
    constructor
    · exact Or.inl
    · rintro (hx | hx)
      · exact hx
      · exact hx ▸ h
  · rw [if_neg h]
    simp

theorem nodup_addUnique (l : List ℚ) (q : ℚ) (h : l.Nodup) : (addUnique l q).Nodup := by
  rw [addUnique]
  by_cases hq : q ∈ l
  · rw [if_pos hq]; exact h
  · rw [if_neg hq]
    simp [List.nodup_append, h, hq]

theorem foldl_collect_nodup :
    ∀ (ps : List Para) (acc : List ℚ), acc.Nodup → (ps.foldl collectStep acc).Nodup := by
  intro ps
  induction ps with
  | nil => intro acc h; simpa using h
  | cons p ps ih =>
    intro acc h
    rw [List.foldl_cons]
    apply ih
    cases p with
    | mso m => exact nodup_addUnique acc (marginPtOf m) h
    | plain => exact h

theorem mem_foldl_collect :
    ∀ (ps : List Para) (acc : List ℚ) (x : ℚ), x ∈ acc → x ∈ ps.foldl collectStep acc := by
  intro ps
  induction ps with
  | nil => intro acc x h; simpa using h
  | cons p ps ih =>
    intro acc x h
    rw [List.foldl_cons]
    apply ih
    cases p with
    | mso m => exact (mem_addUnique acc (marginPtOf m) x).mpr (Or.inl h)
    | plain => exact h

theorem mso_mem_foldl_collect :
    ∀ (ps : List Para) (acc : List ℚ) (m : MsoPara), Para.mso m ∈ ps →
      marginPtOf m ∈ ps.foldl collectStep acc := by
  intro ps
  induction ps with
  | nil => intro acc m h; simp at h
  | cons p ps ih =>
    intro acc m h
    rw [List.foldl_cons]
    rcases List.mem_cons.mp h with h | h
    · subst h
      exact mem_foldl_collect ps _ _
        ((mem_addUnique acc (marginPtOf m) (marginPtOf m)).mpr (Or.inr rfl))
    · exact ih _ m h

theorem rankLookup_none :
    ∀ (l : List ℚ) (i : Nat) (k : ℤ), (∀ y ∈ l, key4 y ≠ k) → rankLookup l i k = none := by
  intro l
  induction l with
  | nil => intro i k _; rfl
  | cons x xs ih =>
    intro i k h
    rw [rankLookup, ih (i + 1) k (fun y hy => h y (by simp [hy])),
      if_neg (h x (by simp))]

theorem rankLookup_indexOf :
    ∀ (l : List ℚ) (i : Nat) (m : ℚ), m ∈ l → l.Nodup →
      (∀ a ∈ l, ∀ b ∈ l, key4 a = key4 b → a = b) →
      rankLookup l i (key4 m) = some (i + l.indexOf m + 1) := by
  intro l
  induction l with
  | nil => intro i m h; simp at h
  | cons x xs ih =>
    intro i m hm hnd hinj
    rcases List.mem_cons.mp hm with hx | hx
    · subst hx
      have hnone : rankLookup xs (i + 1) (key4 m) = none := by
        apply rankLookup_none
        intro y hy hk
        have : y = m := hinj y (by simp [hy]) m (by simp) hk
        subst this
        exact (List.nodup_cons.mp hnd).1 hy
      rw [rankLookup, hnone, if_pos rfl, List.indexOf_cons_self]
    · have hne : m ≠ x := by
        intro h
        subst h
        exact (List.nodup_cons.mp hnd).1 hx
      have := ih (i + 1) m hx (List.nodup_cons.mp hnd).2
        (fun a ha b hb => hinj a (by simp [ha]) b (by simp [hb]))
      rw [rankLookup, this, List.indexOf_cons_ne _ (by exact fun h => hne h.symm)]
      exact congrArg some (by omega)

/-- C4 amended: the unit factors are as stated; when more than one distinct
margin magnitude exists the magnitudes are sorted ascending and, whenever
the 4-decimal rounded keys of the distinct magnitudes are pairwise
distinct, levels 1..N are assigned by rank; the tie criterion is equality
of the margins rounded to four decimal places (toFixed(4)), and a tied
group receives the rank of its last member in the ascending order, without
renumbering (so assigned levels need not form 1..N, refuting the original
tie wording). With at most one distinct magnitude the explicit list-level
number is used as the class; paragraphs with neither signal are left
without a class, which the downstream tree builder reads as level 1. -/
theorem C4_amended (ps : List Para)
    (hcard : 1 < (collectMargins ps).length)
    (hinj : ∀ a ∈ collectMargins ps, ∀ b ∈ collectMargins ps, key4 a = key4 b → a = b) :
    (∀ v : ℚ, parseLengthToPt v "in" = v * 72 ∧ parseLengthToPt v "cm" = v * 28.3465 ∧
      parseLengthToPt v "mm" = v * 2.83465 ∧ parseLengthToPt v "pc" = v * 12 ∧
      parseLengthToPt v "px" = v * 0.75 ∧ parseLengthToPt v "pt" = v) ∧
    addListLevelClasses ps = ps.map (fun p =>
      match p with
      | Para.mso m => some ((sortAsc (collectMargins ps)).indexOf (marginPtOf m) + 1)
      | Para.plain => none) ∧
    (∀ qs : List Para, (collectMargins qs).length ≤ 1 →
      addListLevelClasses qs = qs.map fun p =>
        match p with
        | Para.mso m => m.level
        | Para.plain => none) := by
  refine ⟨fun v => ⟨rfl, rfl, rfl, rfl, rfl, rfl⟩, ?_, ?_⟩
  · rw [addListLevelClasses]
    rw [if_pos hcard]
    apply List.map_congr_left
    intro p hp
    cases p with
    | plain => rfl
    | mso m =>
      have hmem : marginPtOf m ∈ collectMargins ps := mso_mem_foldl_collect ps [] m hp
      have hperm : List.Perm (sortAsc (collectMargins ps)) (collectMargins ps) :=
        List.perm_insertionSort (fun a b => a ≤ b) (collectMargins ps)
      have hmem2 : marginPtOf m ∈ sortAsc (collectMargins ps) := hperm.mem_iff.mpr hmem
      have hnd : (sortAsc (collectMargins ps)).Nodup :=
        hperm.nodup_iff.mpr (foldl_collect_nodup ps [] List.nodup_nil)
      have hinj2 : ∀ a ∈ sortAsc (collectMargins ps), ∀ b ∈ sortAsc (collectMargins ps),
          key4 a = key4 b → a = b := fun a ha b hb =>
        hinj a (hperm.mem_iff.mp ha) b (hperm.mem_iff.mp hb)
      show some ((rankLookup (sortAsc (collectMargins ps)) 0 (key4 (marginPtOf m))).getD 1)
          = some ((sortAsc (collectMargins ps)).indexOf (marginPtOf m) + 1)
      rw [rankLookup_indexOf _ 0 _ hmem2 hnd hinj2]
      simp
  · intro qs hle
    rw [addListLevelClasses, if_neg (by omega)]

/-- Witness input for C4_amended: one mso-list paragraph without margin
(collected as 0) and one with an unadorned margin magnitude 10; the two
rounded keys differ, so ranks 1 and 2 are assigned. -/
def c4wParas : List Para :=
  [Para.mso ⟨none, some 3⟩, Para.mso ⟨some ⟨10, ""⟩, none⟩]

theorem C4_amended_witness : addListLevelClasses c4wParas = [some 1, some 2] := by
  have hm : collectMargins c4wParas = [0, 10] := by
    simp only [collectMargins, c4wParas, List.foldl_cons, List.foldl_nil, collectStep,
      marginPtOf]
    rw [show parseLengthToPt 10 "" = 10 from rfl,
      show addUnique [] 0 = [0] from rfl, addUnique, if_neg (by norm_num)]
    rfl
  have hk0 : key4 0 = 0 := by norm_num [key4]
  have hk10 : key4 10 = 100000 := by
    rw [key4, show (10 : ℚ) * 10000 + 1/2 = 200001/2 by norm_num, Int.floor_eq_iff]
    norm_num
  have hinj : ∀ a ∈ collectMargins c4wParas, ∀ b ∈ collectMargins c4wParas,
      key4 a = key4 b → a = b := by
    rw [hm]
    intro a ha b hb hk
    simp only [List.mem_cons, List.mem_singleton, List.not_mem_nil, or_false] at ha hb
    rcases ha with ha | ha <;> rcases hb with hb | hb <;> subst ha <;> subst hb
    · rfl
    · rw [hk0, hk10] at hk; omega
    · rw [hk0, hk10] at hk; omega
    · rfl
  have hsort : sortAsc [0, 10] = [0, 10] := by
    simp only [sortAsc, List.insertionSort, List.orderedInsert]
    rw [if_pos (by norm_num)]
  have h := (C4_amended c4wParas (by rw [hm]; simp) hinj).2.1
  rw [h, hm, hsort]
  simp only [c4wParas, List.map_cons, List.map_nil, marginPtOf]
  rw [show parseLengthToPt 10 "" = 10 from rfl]
  rw [List.indexOf_cons_self]
  rw [List.indexOf_cons_ne _ (by norm_num), List.indexOf_cons_self]

/-! ### Token embedding of the string-rewriting passes

The source splits markup into tag and text fragments (formatHtml does so
literally with a split on tag boundaries; the heading pass rewrites tag
boundaries with regexes whose matches start and stop at tags). A fragment
is embedded as a token: a tag (closing flag, self-closing flag, lower-case
name, attribute text) or a text run. rawOf renders a token back to its
fragment text. -/

inductive Tok where
  | tag (close : Bool) (selfClosing : Bool) (name : String) (attrs : String)
  | text (s : String)
  deriving Repr, DecidableEq

def rawOf : Tok → String
  | Tok.tag false false n a => "<" ++ n ++ a ++ ">"
  | Tok.tag false true n a => "<" ++ n ++ a ++ "/>"
  | Tok.tag true _ n _ => "</" ++ n ++ ">"
  | Tok.text s => s

/-! ### Structural Normalizer: cleanHeadingTags -/

def isH26 (n : String) : Bool :=
  n = "h2" || n = "h3" || n = "h4" || n = "h5" || n = "h6"

/-- True when a closing tag whose name satisfies p occurs in the list: a
lazy regex body up to such a close can only match when one exists. -/
def anyClose (p : String → Bool) : List Tok → Bool
  | [] => false
  | Tok.tag true _ n _ :: rest => p n || anyClose p rest
  | _ :: rest => anyClose p rest

/-- Embeds the removal of spans styled mso-list:Ignore together with their
content (a lazy match up to the first closing span, ignoring nesting, with
no match when no closing span follows). The Boolean argument is true while
inside a span being dropped. -/
def removeIgnoreSpans : Bool → List Tok → List Tok
  | _, [] => []
  | true, Tok.tag true _ "span" _ :: rest => removeIgnoreSpans false rest
  | true, _ :: rest => removeIgnoreSpans true rest
  | false, Tok.tag false sc "span" attrs :: rest =>
    if containsSub attrs "mso-list:Ignore" && anyClose (fun n => n = "span") rest then
      removeIgnoreSpans true rest
    else Tok.tag false sc "span" attrs :: removeIgnoreSpans false rest
  | false, t :: rest => t :: removeIgnoreSpans false rest

/-- Embeds the global regex that rewrites a heading open tag (name
satisfying p), its lazily matched content, and the first following heading
close into a b element: the opening tag becomes a bare b, the content is
copied verbatim (and not rescanned), the close becomes /b; an opening tag
with no following close never matches and is left alone. The Boolean
argument is true while copying matched content. -/
def demoteHeads (p : String → Bool) : Bool → List Tok → List Tok
  | _, [] => []
  | true, Tok.tag true sc n a :: rest =>
    if p n then Tok.tag true false "b" "" :: demoteHeads p false rest
    else Tok.tag true sc n a :: demoteHeads p true rest
  | true, t :: rest => t :: demoteHeads p true rest
  | false, Tok.tag false sc n a :: rest =>
    if p n && anyClose p rest then Tok.tag false false "b" "" :: demoteHeads p true rest
    else Tok.tag false sc n a :: demoteHeads p false rest
  | false, t :: rest => t :: demoteHeads p false rest

/-- True when the h1 regex has a match: an opening h1 with some closing h1
after it (equivalently, the first opening h1 has one). -/
def hasH1Pair : List Tok → Bool
  | [] => false
  | Tok.tag false _ "h1" _ :: rest => anyClose (fun n => n = "h1") rest
  | _ :: rest => hasH1Pair rest

/-- Embeds the single (non-global) replace of the first h1 pair by a
dita-title pair, content kept verbatim; only called under the hasH1Pair
guard, mirroring the if (h1Match) in the source. -/
def replaceFirstH1 : Bool → List Tok → List Tok
  | _, [] => []
  | true, Tok.tag true _ "h1" _ :: rest => Tok.tag true false "dita-title" "" :: rest
  | true, t :: rest => t :: replaceFirstH1 true rest
  | false, Tok.tag false _ "h1" _ :: rest =>
    Tok.tag false false "dita-title" "" :: replaceFirstH1 true rest
  | false, t :: rest => t :: replaceFirstH1 false rest

/-- Embeds cleanHeadingTags: drop marker spans, demote h2..h6 to b, then if
an h1 pair exists turn the first one into dita-title, demote the remaining
h1 pairs to b, and wrap the whole content in one section element. -/
def cleanHeadingTags (ts : List Tok) : List Tok :=
  let t1 := removeIgnoreSpans false ts
  let t2 := demoteHeads isH26 false t1
  if hasH1Pair t2 then
    Tok.tag false false "section" "" ::
      (demoteHeads (fun n => n = "h1") false (replaceFirstH1 false t2) ++
        [Tok.tag true false "section" ""])
  else t2

def restoreName (n : String) : String :=
  if n = "dita-title" then "title"
  else if n = "dita-table" then "table"
  else if n = "dita-tgroup" then "tgroup"
  else if n = "dita-thead" then "thead"
  else if n = "dita-tbody" then "tbody"
  else if n = "dita-row" then "row"
  else if n = "dita-entry" then "entry"
  else n

/-- Embeds restoreDitaTags: renames the dita- placeholder tags back to the
standard names and collapses an adjacent dita-colspec open/close pair into
one self-closing colspec. -/
def restoreDitaTags : List Tok → List Tok
  | Tok.tag false _ "dita-colspec" a :: Tok.tag true _ "dita-colspec" _ :: rest =>
    Tok.tag false true "colspec" a :: restoreDitaTags rest
  | Tok.tag c sc n a :: rest => Tok.tag c sc (restoreName n) a :: restoreDitaTags rest
  | t :: rest => t :: restoreDitaTags rest
  | [] => []

def countOpen (n : String) : List Tok → Nat
  | [] => 0
  | Tok.tag false _ m _ :: rest => (if m = n then 1 else 0) + countOpen n rest
  | _ :: rest => countOpen n rest

def isHeadName (n : String) : Bool := n = "h1" || isH26 n

def countHeadOpens : List Tok → Nat
  | [] => 0
  | Tok.tag false _ m _ :: rest => (if isHeadName m then 1 else 0) + countHeadOpens rest
  | _ :: rest => countHeadOpens rest

/-- C3: for the input h1 A, p x, h2 B, p y (arbitrary text payloads), the
heading pass followed by tag restoration yields exactly one title element
holding the first heading's content, the title and all remaining sibling
content wrapped in exactly one section container, and the second heading's
content demoted to a b element; no heading tag remains. -/
theorem C3_heading_scenario (a x b y : String) :
    restoreDitaTags (cleanHeadingTags
      [Tok.tag false false "h1" "", Tok.text a, Tok.tag true false "h1" "",
       Tok.tag false false "p" "", Tok.text x, Tok.tag true false "p" "",
       Tok.tag false false "h2" "", Tok.text b, Tok.tag true false "h2" "",
       Tok.tag false false "p" "", Tok.text y, Tok.tag true false "p" ""])
      = [Tok.tag false false "section" "",
         Tok.tag false false "title" "", Tok.text a, Tok.tag true false "title" "",
         Tok.tag false false "p" "", Tok.text x, Tok.tag true false "p" "",
         Tok.tag false false "b" "", Tok.text b, Tok.tag true false "b" "",
         Tok.tag false false "p" "", Tok.text y, Tok.tag true false "p" "",
         Tok.tag true false "section" ""] ∧
    countOpen "title" (restoreDitaTags (cleanHeadingTags
      [Tok.tag false false "h1" "", Tok.text a, Tok.tag true false "h1" "",
       Tok.tag false false "p" "", Tok.text x, Tok.tag true false "p" "",
       Tok.tag false false "h2" "", Tok.text b, Tok.tag true false "h2" "",
       Tok.tag false false "p" "", Tok.text y, Tok.tag true false "p" ""])) = 1 ∧
    countOpen "section" (restoreDitaTags (cleanHeadingTags
      [Tok.tag false false "h1" "", Tok.text a, Tok.tag true false "h1" "",
       Tok.tag false false "p" "", Tok.text x, Tok.tag true false "p" "",
       Tok.tag false false "h2" "", Tok.text b, Tok.tag true false "h2" "",
       Tok.tag false false "p" "", Tok.text y, Tok.tag true false "p" ""])) = 1 ∧
    countHeadOpens (restoreDitaTags (cleanHeadingTags
      [Tok.tag false false "h1" "", Tok.text a, Tok.tag true false "h1" "",
       Tok.tag false false "p" "", Tok.text x, Tok.tag true false "p" "",
       Tok.tag false false "h2" "", Tok.text b, Tok.tag true false "h2" "",
       Tok.tag false false "p" "", Tok.text y, Tok.tag true false "p" ""])) = 0 := by
  refine ⟨rfl, rfl, rfl, rfl⟩

/-! ### Formatter (formatHtml)

The source splits the markup into tag/text fragments and walks them once:
block tags flush the current line and print on their own indented lines;
inline tags and text accumulate on the current line; for a designated set
of leaf containers a look-ahead (isSimpleBlock) checks that only inline
content precedes the matching close, in which case an inner loop emits the
whole container on one line. The inner loop is embedded as a second mode
(fmtSimple) of the single token walk. -/

def blockTags : List String :=
  ["html", "body", "dita", "topic", "title", "shortdesc", "section",
   "p", "div", "table", "tgroup", "thead", "tbody", "row", "entry", "colspec",
   "ul", "ol", "li", "dl", "dlentry", "dt", "dd", "fig", "note", "lines", "pre",
   "dita-table", "dita-tgroup", "dita-thead", "dita-tbody", "dita-row", "dita-entry",
   "dita-colspec"]

/-- The leaf containers eligible for single-line emission (table cell,
paragraph, list item, title, dt, dd). -/
def simpleTags : List String := ["entry", "dita-entry", "p", "li", "title", "dt", "dd"]

def indentStr (n : Nat) : String := String.mk (List.replicate (2 * n) ' ')

/-- Embeds flushLine: a non-blank current line is appended, trimmed, at the
current indent. -/
def flushLine (ind : Nat) (line out : String) : String :=
  if trimChars line = "" then out else out ++ indentStr ind ++ trimChars line ++ "\n"

/-- Embeds isSimpleBlock: scan forward from just after the opening tag,
tracking the balance of same-name tags; reaching the matching close yields
true, meeting any other block tag yields false. -/
def simpleScan (target : String) : List Tok → Nat → Bool
  | [], _ => false
  | Tok.text _ :: rest, bal => simpleScan target rest bal
  | Tok.tag close sc n _ :: rest, bal =>
    if n = target then
      if close then (if bal = 1 then true else simpleScan target rest (bal - 1))
      else if sc then simpleScan target rest bal
      else simpleScan target rest (bal + 1)
    else if n ∈ blockTags then false
    else simpleScan target rest bal

mutual

/-- Main loop of formatHtml over the remaining tokens: indent level, the
current accumulating line, and the output so far. -/
def fmtNormal : List Tok → Nat → String → String → String
  | [], ind, line, out => flushLine ind line out
  | Tok.text s :: rest, ind, line, out => fmtNormal rest ind (line ++ collapseWs s) out
  | Tok.tag close sc n a :: rest, ind, line, out =>
    if n ∈ blockTags then
      if close then
        fmtNormal rest (ind - 1) ""
          (flushLine ind line out ++ indentStr (ind - 1) ++ rawOf (Tok.tag close sc n a) ++ "\n")
      else if sc then
        fmtNormal rest ind ""
          (flushLine ind line out ++ indentStr ind ++ rawOf (Tok.tag close sc n a) ++ "\n")
      else if n ∈ simpleTags && simpleScan n rest 1 then
        fmtSimple n 1 rest ind ""
          (flushLine ind line out ++ indentStr ind ++ rawOf (Tok.tag close sc n a))
      else
        fmtNormal rest (ind + 1) ""
          (flushLine ind line out ++ indentStr ind ++ rawOf (Tok.tag close sc n a) ++ "\n")
    else fmtNormal rest ind (line ++ rawOf (Tok.tag close sc n a)) out

/-- Inner consume loop of the simple-block branch: append every fragment
(text whitespace-collapsed, tags raw) until the matching close, which is
appended with the line break, then return to the main loop. -/
def fmtSimple : String → Nat → List Tok → Nat → String → String → String
  | _, _, [], ind, line, out => flushLine ind line out
  | target, bal, Tok.text s :: rest, ind, line, out =>
    fmtSimple target bal rest ind line (out ++ collapseWs s)
  | target, bal, Tok.tag close sc n a :: rest, ind, line, out =>
    if n = target then
      if close then
        if bal = 1 then fmtNormal rest ind line (out ++ rawOf (Tok.tag close sc n a) ++ "\n")
        else fmtSimple target (bal - 1) rest ind line (out ++ rawOf (Tok.tag close sc n a))
      else if sc then fmtSimple target bal rest ind line (out ++ rawOf (Tok.tag close sc n a))
      else fmtSimple target (bal + 1) rest ind line (out ++ rawOf (Tok.tag close sc n a))
    else fmtSimple target bal rest ind line (out ++ rawOf (Tok.tag close sc n a))

end

/-- Embeds formatHtml: run the walk at indent 0 with empty line and output,
and trim the result. -/
def formatHtml (ts : List Tok) : String := trimChars (fmtNormal ts 0 "" "")

/-- A token is inline for the formatter: a text run or a tag whose name is
not in the block-tag set. -/
def isInlineTok : Tok → Bool
  | Tok.text _ => true
  | Tok.tag _ _ n _ => if n ∈ blockTags then false else true

/-- The text the consume loop appends for a token sequence. -/
def renderInline : List Tok → String
  | [] => ""
  | Tok.text s :: r => collapseWs s ++ renderInline r
  | t :: r => rawOf t ++ renderInline r

theorem sappend_assoc (a b c : String) : a ++ b ++ c = a ++ (b ++ c) := by
  cases a with | mk la =>
  cases b with | mk lb =>
  cases c with | mk lc =>
  show String.mk ((la ++ lb) ++ lc) = String.mk (la ++ (lb ++ lc))
  rw [List.append_assoc]

theorem sappend_empty (a : String) : a ++ "" = a := by
  cases a with | mk l =>
  show String.mk (l ++ []) = String.mk l
  rw [List.append_nil]

theorem simple_mem_block (n : String) (h : n ∈ simpleTags) : n ∈ blockTags := by
  simp only [simpleTags, List.mem_cons, List.mem_singleton, List.not_mem_nil, or_false] at h
  rcases h with h | h | h | h | h | h | h <;> subst h <;> decide

theorem scan_true (n : String) (hb : n ∈ blockTags) :
    ∀ (mid : List Tok), (∀ t ∈ mid, isInlineTok t) → ∀ (rest : List Tok),
      simpleScan n (mid ++ Tok.tag true false n "" :: rest) 1 = true := by
  intro mid
  induction mid with
  | nil =>
    intro _ rest
    simp [simpleScan]
  | cons t mid ih =>
    intro hmid rest
    have ht := hmid t (by simp)
    cases t with
    | text s =>
      rw [List.cons_append, simpleScan]
      exact ih (fun u hu => hmid u (by simp [hu])) rest
    | tag c sc m a =>
      have hm : ¬ m ∈ blockTags := by
        simp only [isInlineTok] at ht
        by_cases hmem : m ∈ blockTags
        · rw [if_pos hmem] at ht; exact absurd ht (by simp)
        · exact hmem
      have hmn : m ≠ n := fun h => hm (h ▸ hb)
      rw [List.cons_append, simpleScan, if_neg hmn, if_neg hm]
      exact ih (fun u hu => hmid u (by simp [hu])) rest

theorem consume_simple (n : String) (hb : n ∈ blockTags) :
    ∀ (mid : List Tok), (∀ t ∈ mid, isInlineTok t) →
      ∀ (rest : List Tok) (ind : Nat) (line out : String),
      fmtSimple n 1 (mid ++ Tok.tag true false n "" :: rest) ind line out
        = fmtNormal rest ind line
            (out ++ renderInline mid ++ rawOf (Tok.tag true false n "") ++ "\n") := by
  intro mid
  induction mid with
  | nil =>
    intro _ rest ind line out
    rw [List.nil_append, fmtSimple, if_pos rfl]
    simp [renderInline, sappend_empty]
  | cons t mid ih =>
    intro hmid rest ind line out
    have ht := hmid t (by simp)
    cases t with
    | text s =>
      rw [List.cons_append, fmtSimple,
        ih (fun u hu => hmid u (by simp [hu])) rest ind line (out ++ collapseWs s),
        renderInline, sappend_assoc out (collapseWs s) (renderInline mid)]
    | tag c sc m a =>
      have hm : ¬ m ∈ blockTags := by
        simp only [isInlineTok] at ht
        by_cases hmem : m ∈ blockTags
        · rw [if_pos hmem] at ht; exact absurd ht (by simp)
        · exact hmem
      have hmn : m ≠ n := fun h => hm (h ▸ hb)
      rw [List.cons_append, fmtSimple, if_neg hmn,
        ih (fun u hu => hmid u (by simp [hu])) rest ind line (out ++ rawOf (Tok.tag c sc m a))]
      have hrend : renderInline (Tok.tag c sc m a :: mid)
          = rawOf (Tok.tag c sc m a) ++ renderInline mid := by
        cases c <;> rfl
      rw [hrend, sappend_assoc out (rawOf (Tok.tag c sc m a)) (renderInline mid)]

/-- C9: for every designated leaf container (entry, dita-entry, p, li,
title, dt, dd), (i) when the look-ahead finds only inline content up to the
matching close, the whole container is emitted on one output line at the
current indent, the text inside it whitespace-collapsed, and the walk
continues at unchanged indent; (ii) when the look-ahead fails the opening
tag is emitted as a normal indented block line and the indent increases by
one; (iii) a text fragment has its whitespace runs collapsed to single
spaces as it is appended to the current line. -/
theorem C9_simple_blocks :
    (∀ (n a : String) (mid rest : List Tok) (ind : Nat) (acc : String),
      n ∈ simpleTags → (∀ t ∈ mid, isInlineTok t) →
      fmtNormal (Tok.tag false false n a :: (mid ++ Tok.tag true false n "" :: rest)) ind "" acc
        = fmtNormal rest ind ""
            (acc ++ indentStr ind ++ rawOf (Tok.tag false false n a) ++ renderInline mid
              ++ rawOf (Tok.tag true false n "") ++ "\n")) ∧
    (∀ (n a : String) (ts : List Tok) (ind : Nat) (acc : String),
      n ∈ simpleTags → simpleScan n ts 1 = false →
      fmtNormal (Tok.tag false false n a :: ts) ind "" acc
        = fmtNormal ts (ind + 1) ""
            (acc ++ indentStr ind ++ rawOf (Tok.tag false false n a) ++ "\n")) ∧
    (∀ (s : String) (rest : List Tok) (ind : Nat) (line acc : String),
      fmtNormal (Tok.text s :: rest) ind line acc
        = fmtNormal rest ind (line ++ collapseWs s) acc) := by
  have hflush : ∀ (ind : Nat) (acc : String), flushLine ind "" acc = acc := by
    intro ind acc
    rw [flushLine, if_pos (show trimChars "" = "" from rfl)]
  refine ⟨?_, ?_, ?_⟩
  · intro n a mid rest ind acc hs hmid
    have hb : n ∈ blockTags := simple_mem_block n hs
    have hscan := scan_true n hb mid hmid rest
    rw [fmtNormal, if_pos hb]
    simp only [Bool.false_eq_true, if_false, hscan, decide_eq_true hs, Bool.and_self, if_true]
    rw [hflush, consume_simple n hb mid hmid rest ind ""]
  · intro n a ts ind acc hs hscan
    have hb : n ∈ blockTags := simple_mem_block n hs
    rw [fmtNormal, if_pos hb]
    simp only [Bool.false_eq_true, if_false, hscan, Bool.and_false, if_false]
    rw [hflush]
  · intro s rest ind line acc
    rw [fmtNormal]

/-- Witness for C9_simple_blocks: a p container holding one text fragment
with a double space is emitted on one line with the run collapsed; a p
container holding a ul is opened as an indented block; a text fragment is
collapsed onto the current line. -/
theorem C9_simple_blocks_witness :
    fmtNormal [Tok.tag false false "p" "", Tok.text "a  b", Tok.tag true false "p" ""] 0 "" ""
      = fmtNormal [] 0 ""
          ("" ++ indentStr 0 ++ rawOf (Tok.tag false false "p" "")
            ++ renderInline [Tok.text "a  b"] ++ rawOf (Tok.tag true false "p" "") ++ "\n") ∧
    fmtNormal [Tok.tag false false "p" "", Tok.tag false false "ul" "",
        Tok.tag true false "ul" "", Tok.tag true false "p" ""] 0 "" ""
      = fmtNormal [Tok.tag false false "ul" "", Tok.tag true false "ul" "",
          Tok.tag true false "p" ""] 1 ""
          ("" ++ indentStr 0 ++ rawOf (Tok.tag false false "p" "") ++ "\n") ∧
    fmtNormal [Tok.text "x  y"] 0 "" ""
      = fmtNormal [] 0 ("" ++ collapseWs "x  y") "" :=
  ⟨C9_simple_blocks.1 "p" "" [Tok.text "a  b"] [] 0 "" (by decide)
      (by intro t ht; simp only [List.mem_singleton] at ht; subst ht; decide),
    C9_simple_blocks.2.1 "p" "" [Tok.tag false false "ul" "", Tok.tag true false "ul" "",
      Tok.tag true false "p" ""] 0 "" (by decide) (by decide),
    C9_simple_blocks.2.2 "x  y" [] 0 "" ""⟩

/-! ### List Reconstructor: DOM tree model

convertMsoListToNestedLists and bufferToList work on the parsed document:
nodes are elements (tag, attribute list, children) or text runs. The
source's pointer walks (currentList, parentElement chains, appendChild) are
embedded as a zipper: a stack of one-DOM-level frames over the focused
list; moving up two DOM levels pops two frames. -/

inductive DNode where
  | elem (tag : String) (attrs : List (String × String)) (children : List DNode)
  | text (s : String)
  deriving Repr

def childrenOf : DNode → List DNode
  | DNode.elem _ _ cs => cs
  | DNode.text _ => []

def tagOf : DNode → String
  | DNode.elem t _ _ => t
  | DNode.text _ => ""

def attrsOf : DNode → List (String × String)
  | DNode.elem _ a _ => a
  | DNode.text _ => []

def attrVal (attrs : List (String × String)) (k : String) : Option String :=
  (attrs.find? fun p => p.1 = k).map Prod.snd

def wsSplit : List Char → List Char → List String
  | [], acc => if acc.isEmpty then [] else [String.mk acc.reverse]
  | c :: rest, acc =>
    if isWsChar c then
      if acc.isEmpty then wsSplit rest [] else String.mk acc.reverse :: wsSplit rest []
    else wsSplit rest (c :: acc)

def classTokens (s : String) : List String := wsSplit s.toList []

/-- A div carrying the given class token (the CSS selector div.cls). -/
def isClassDiv (cls : String) (n : DNode) : Bool :=
  match n with
  | DNode.elem "div" attrs _ =>
    match attrVal attrs "class" with
    | some v => (classTokens v).contains cls
    | none => false
  | _ => false

mutual

def findSecN : DNode → Option DNode
  | DNode.text _ => none
  | DNode.elem _ _ cs => findSecF cs

/-- First div.section in document order within a forest (querySelector). -/
def findSecF : List DNode → Option DNode
  | [] => none
  | n :: rest =>
    if isClassDiv "section" n then some n
    else
      match findSecN n with
      | some s => some s
      | none => findSecF rest

end

mutual

def unwrapN : DNode → DNode × Bool
  | DNode.text s => (DNode.text s, false)
  | DNode.elem t a cs =>
    let r := unwrapF cs
    (DNode.elem t a r.1, r.2)

/-- Embeds the document/section unwrapping prologue of
convertMsoListToNestedLists: the first div.document found (in document
order, at any depth) is inspected; if it holds a div.section, the section's
children replace the whole document div at its position; with no section
the document div is left alone; in both cases the search stops. The Boolean
reports whether a document div was found. -/
def unwrapF : List DNode → List DNode × Bool
  | [] => ([], false)
  | n :: rest =>
    if isClassDiv "document" n then
      match findSecF (childrenOf n) with
      | some s => (childrenOf s ++ rest, true)
      | none => (n :: rest, true)
    else
      let rn := unwrapN n
      if rn.2 then (rn.1 :: rest, true)
      else
        let rr := unwrapF rest
        (rn.1 :: rr.1, rr.2)

end

/-- A span whose style attribute contains mso-list:Ignore (the marker span
selector). -/
def isMarkerSpan (n : DNode) : Bool :=
  match n with
  | DNode.elem "span" attrs _ =>
    match attrVal attrs "style" with
    | some v => containsSub v "mso-list:Ignore"
    | none => false
  | _ => false

mutual

def findMarkerN : DNode → Option DNode
  | DNode.text _ => none
  | DNode.elem _ _ cs => findMarkerF cs

/-- First marker span in document order within a forest. -/
def findMarkerF : List DNode → Option DNode
  | [] => none
  | n :: rest =>
    if isMarkerSpan n then some n
    else
      match findMarkerN n with
      | some s => some s
      | none => findMarkerF rest

end

mutual

def removeMarkerN : DNode → DNode × Bool
  | DNode.text s => (DNode.text s, false)
  | DNode.elem t a cs =>
    let r := removeMarkerF cs
    (DNode.elem t a r.1, r.2)

/-- Removes the first marker span (the source's removeChild on the span
found by the selector). The Boolean reports whether one was removed. -/
def removeMarkerF : List DNode → List DNode × Bool
  | [] => ([], false)
  | n :: rest =>
    if isMarkerSpan n then (rest, true)
    else
      let rn := removeMarkerN n
      if rn.2 then (rn.1 :: rest, true)
      else
        let rr := removeMarkerF rest
        (rn.1 :: rr.1, rr.2)

end

mutual

def textContentN : DNode → String
  | DNode.text s => s
  | DNode.elem _ _ cs => textContentF cs

def textContentF : List DNode → String
  | [] => ""
  | n :: rest => textContentN n ++ textContentF rest

end

def isRomanChar (c : Char) : Bool :=
  c ∈ ['i', 'v', 'x', 'l', 'c', 'd', 'm', 'I', 'V', 'X', 'L', 'C', 'D', 'M']

def isCJKChar (c : Char) : Bool :=
  c.toNat = 0x3007 || (0x4e00 ≤ c.toNat && c.toNat ≤ 0x4e5d) ||
    (0x58f1 ≤ c.toNat && c.toNat ≤ 0x62fe)

def isBulletChar (c : Char) : Bool :=
  c.toNat = 0x2022 || c.toNat = 0xb7 || c.toNat = 0xa7 || c.toNat = 0x25CF ||
    c.toNat = 0x25CB || c.toNat = 0x25E6 || c.toNat = 0x2023 || c.toNat = 0x2043

/-- One-or-more characters satisfying p followed by a dot, anchored at the
start (the marker regexes; p's class and the dot are disjoint, so greedy
matching is one take/drop). -/
def plusThenDot (p : Char → Bool) (l : List Char) : Bool :=
  (match l with
   | c :: _ => p c
   | [] => false) &&
  ((l.dropWhile p).head? = some '.')

/-- Embeds getListType: inspect the marker span's trimmed text; letter plus
dot or parenthesis, digits plus dot, roman numerals plus dot or CJK
numerals plus dot give an ordered list; a bullet glyph an unordered list;
anything else (including a missing marker span) defaults to unordered. -/
def getListType (para : DNode) : String :=
  match findMarkerN para with
  | none => "ul"
  | some sp =>
    let marker := (trimChars (textContentN sp)).toList
    if (match marker with
        | c0 :: c1 :: _ => c0.isAlpha && (c1 = '.' || c1 = ')')
        | _ => false) then "ol"
    else if plusThenDot Char.isDigit marker then "ol"
    else if plusThenDot isRomanChar marker then "ol"
    else if plusThenDot isCJKChar marker then "ol"
    else if (match marker with
        | c :: _ => isBulletChar c
        | _ => false) then "ul"
    else "ul"

/-- First occurrence of list-level-(digits) in a class attribute value. -/
def listLevelFrom : List Char → Option Nat
  | [] => none
  | l@(_ :: rest) =>
    if "list-level-".toList.isPrefixOf l then
      let ds := (l.drop 11).takeWhile Char.isDigit
      if ds.isEmpty then listLevelFrom rest else some (natOfDigits ds)
    else listLevelFrom rest

/-- Embeds the level read in bufferToList: the list-level class number,
defaulting to 1 when the class (or a match in it) is absent. -/
def levelOfPara (para : DNode) : Nat :=
  match para with
  | DNode.elem _ attrs _ =>
    match attrVal attrs "class" with
    | some v => (listLevelFrom v.toList).getD 1
    | none => 1
  | DNode.text _ => 1

def trimLeadNodes : List DNode → List DNode
  | [] => []
  | DNode.text s :: rest =>
    let s2 := String.mk (s.toList.dropWhile isWsChar)
    if s2 = "" then trimLeadNodes rest else DNode.text s2 :: rest
  | n :: rest => n :: rest

def trimTrailNodes : List DNode → List DNode
  | [] => []
  | DNode.text s :: rest =>
    let s2 := String.mk ((s.toList.reverse.dropWhile isWsChar).reverse)
    if s2 = "" then trimTrailNodes rest else DNode.text s2 :: rest
  | n :: rest => n :: rest

/-- Embeds the innerHTML.trim() applied to the paragraph content that
becomes the list item body: outer whitespace at either end of the node
sequence is trimmed. -/
def trimNodes (l : List DNode) : List DNode :=
  (trimTrailNodes (trimLeadNodes l).reverse).reverse

/-- One saved DOM level: the parent element's tag and attributes and the
siblings before and after the hole the focus sits in. -/
structure Frame where
  ptag : String
  pattrs : List (String × String)
  before : List DNode
  after : List DNode
  deriving Repr

def closeFrame (fr : Frame) (focus : DNode) : DNode :=
  DNode.elem fr.ptag fr.pattrs (fr.before ++ focus :: fr.after)

def unwindAll : List Frame → DNode → DNode
  | [], f => f
  | fr :: rs, f => unwindAll rs (closeFrame fr f)

/-- The mutable state of bufferToList: the zipper over the list under
construction (stack of parent levels plus the focused current list, none
before any list exists — currentList and rootList are both null then), the
current list kind, and the previously seen level. -/
structure BState where
  stack : List Frame
  focus : Option DNode
  curType : String
  prevLevel : Nat
  deriving Repr

def initB : BState := ⟨[], none, "ul", 0⟩

/-- Splits off the last element child (lastElementChild): siblings before,
the element, siblings after. -/
def lastElemSplit : List DNode → Option (List DNode × DNode × List DNode)
  | [] => none
  | c :: rest =>
    match lastElemSplit rest with
    | some (b, e, a) => some (c :: b, e, a)
    | none =>
      match c with
      | DNode.elem t at2 ch => some ([], DNode.elem t at2 ch, rest)
      | DNode.text _ => none

def appendTo (n : DNode) (child : DNode) : DNode :=
  match n with
  | DNode.elem t a cs => DNode.elem t a (cs ++ [child])
  | DNode.text s => DNode.text s

/-- One step of currentList = currentList.parentElement.parentElement,
taken only when both parents exist (two frames on the stack). -/
def ascend2 (st : BState) : BState :=
  match st.stack, st.focus with
  | fr1 :: fr2 :: rs, some f =>
    { st with stack := rs, focus := some (closeFrame fr2 (closeFrame fr1 f)) }
  | _, _ => st

def ascendTimes : Nat → BState → BState
  | 0, st => st
  | k + 1, st => ascendTimes k (ascend2 st)

/-- Embeds the level greater than previous branch: a new list of the item's
kind is appended inside the last element child of the current list (or
directly to the current list when it has no element child, or becomes the
root when no list exists yet) and focus descends into it. -/
def descend (lt : String) (st : BState) : BState :=
  match st.focus with
  | none => { stack := [], focus := some (DNode.elem lt [] []), curType := lt,
              prevLevel := st.prevLevel }
  | some f =>
    match lastElemSplit (childrenOf f) with
    | some (b, e, a) =>
      { stack := Frame.mk (tagOf e) (attrsOf e) (childrenOf e) [] ::
          Frame.mk (tagOf f) (attrsOf f) b a :: st.stack,
        focus := some (DNode.elem lt [] []), curType := lt, prevLevel := st.prevLevel }
    | none =>
      { stack := Frame.mk (tagOf f) (attrsOf f) (childrenOf f) [] :: st.stack,
        focus := some (DNode.elem lt [] []), curType := lt, prevLevel := st.prevLevel }

/-- Embeds the same-level kind-switch branch: when the current list has a
parent, a new sibling list of the new kind is appended to that parent after
the current list and becomes current; with no parent and a current list
nothing happens; with no current list a fresh root of the new kind is
created. -/
def siblingList (lt : String) (st : BState) : BState :=
  match st.focus with
  | none => { stack := [], focus := some (DNode.elem lt [] []), curType := lt,
              prevLevel := st.prevLevel }
  | some f =>
    match st.stack with
    | [] => st
    | fr :: rs =>
      { stack := Frame.mk fr.ptag fr.pattrs (fr.before ++ f :: fr.after) [] :: rs,
        focus := some (DNode.elem lt [] []), curType := lt, prevLevel := st.prevLevel }

/-- Embeds currentList = rootList: rebuild through every open frame so the
focus is the root list again. -/
def unwindState (st : BState) : BState :=
  match st.focus with
  | none => st
  | some f => { st with stack := [], focus := some (unwindAll st.stack f) }

/-- One iteration of the bufferToList loop for one buffered paragraph. -/
def bufferStep (st : BState) (para : DNode) : BState :=
  let level := levelOfPara para
  let lt := getListType para
  let li := DNode.elem "li" [] (trimNodes (childrenOf (removeMarkerN para).1))
  let st2 :=
    if level = 1 then
      if st.focus.isNone || st.prevLevel = 0 then
        { stack := [], focus := some (DNode.elem lt [] []), curType := lt,
          prevLevel := st.prevLevel }
      else unwindState st
    else
      if st.prevLevel < level then descend lt st
      else if level < st.prevLevel then ascendTimes (st.prevLevel - level) st
      else if lt ≠ st.curType then siblingList lt st
      else st
  let st3 :=
    match st2.focus with
    | some f => { st2 with focus := some (appendTo f li) }
    | none => st2
  { st3 with prevLevel := level }

/-- Embeds bufferToList: fold the tree-building step over the buffered
paragraphs and return the root list (none for an empty buffer or when no
list was ever created). -/
def bufferToList (buf : List DNode) : Option DNode :=
  let st := buf.foldl bufferStep initB
  match st.focus with
  | some f => some (unwindAll st.stack f)
  | none => none

/-- A p element whose style attribute exists and mentions mso-list. -/
def isListPara (n : DNode) : Bool :=
  match n with
  | DNode.elem "p" attrs _ =>
    match attrVal attrs "style" with
    | some v => containsSub v "mso-list"
    | none => false
  | _ => false

def isWsText (n : DNode) : Bool :=
  match n with
  | DNode.text s => trimChars s = ""
  | _ => false

/-- Embeds the main traversal of convertMsoListToNestedLists: list-marker
paragraphs are buffered; whitespace text between buffered items is dropped
(kept when the buffer is empty); any other node flushes the buffer through
bufferToList and is then kept; a trailing buffer is flushed at the end. -/
def convertLoop : List DNode → List DNode → List DNode → List DNode
  | [], buf, acc =>
    acc ++ (match bufferToList buf with
            | some l => [l]
            | none => [])
  | n :: rest, buf, acc =>
    if isListPara n then convertLoop rest (buf ++ [n]) acc
    else if isWsText n then
      if buf.isEmpty then convertLoop rest buf (acc ++ [n])
      else convertLoop rest buf acc
    else
      convertLoop rest []
        (acc ++ (match bufferToList buf with
                 | some l => [l]
                 | none => []) ++ [n])

/-- Embeds convertMsoListToNestedLists on the body's child forest: the
document/section unwrap prologue followed by the buffering traversal. -/
def convertMsoListToNestedLists (forest : List DNode) : List DNode :=
  convertLoop (unwrapF forest).1 [] []

mutual

def countTagN (t : String) : DNode → Nat
  | DNode.text _ => 0
  | DNode.elem tg _ cs => (if tg = t then 1 else 0) + countTagF t cs

/-- Number of elements with the given tag in a forest, at any depth. -/
def countTagF (t : String) : List DNode → Nat
  | [] => 0
  | c :: cs => countTagN t c + countTagF t cs

end

/-- A buffered list-marker paragraph carrying the given level class, marker
span text, and item text, as the List Reconstructor sees it after the
Sanitizer and level-classing passes. -/
def mkListPara (lvl : Nat) (marker item : String) : DNode :=
  DNode.elem "p"
    [("class", "list-level-" ++ toString lvl), ("style", "mso-list:l0 level1 lfo1")]
    [DNode.elem "span" [("style", "mso-list:Ignore")] [DNode.text marker],
     DNode.text item]

/-- C2 counterexample: for a level-1 ordered item (marker 1.) immediately
followed by a level-1 unordered item (marker bullet), the claim requires
two adjacent sibling containers, an ordered list then an unordered list.
bufferToList instead appends both items to the single root container: the
level-1 branch never starts a sibling list, so the result is one ol holding
both items and containing no ul at all. -/
theorem C2_counterexample :
    bufferToList [mkListPara 1 "1." "one", mkListPara 1 "•" "two"]
      = some (DNode.elem "ol" []
          [DNode.elem "li" [] [DNode.text "one"],
           DNode.elem "li" [] [DNode.text "two"]]) ∧
    (match bufferToList [mkListPara 1 "1." "one", mkListPara 1 "•" "two"] with
     | some l => countTagN "ul" l
     | none => 0) = 0 ∧
    (match bufferToList [mkListPara 1 "1." "one", mkListPara 1 "•" "two"] with
     | some l => countTagN "ol" l
     | none => 0) = 1 :=
  ⟨rfl, rfl, rfl⟩

/-- C2 amended: the kind-switch rule starts a new sibling list container
only for items at nesting level 2 or deeper, where the new container is
appended next to the current one inside the same parent item; at level 1
the root container keeps the kind it was created with and both items are
appended to it. Shown on a level-2 kind switch (ordered a. then unordered
bullet inside a level-1 ordered item): the parent item holds two adjacent
sibling lists, ordered then unordered; and on the level-1 scenario with
markers 2. and middle dot: one mixed ordered root. -/
theorem C2_amended :
    bufferToList
        [mkListPara 1 "1." "one", mkListPara 2 "a." "two", mkListPara 2 "•" "three"]
      = some (DNode.elem "ol" []
          [DNode.elem "li" []
            [DNode.text "one",
             DNode.elem "ol" [] [DNode.elem "li" [] [DNode.text "two"]],
             DNode.elem "ul" [] [DNode.elem "li" [] [DNode.text "three"]]]]) ∧
    bufferToList [mkListPara 1 "2." "x", mkListPara 1 "·" "y"]
      = some (DNode.elem "ol" []
          [DNode.elem "li" [] [DNode.text "x"],
           DNode.elem "li" [] [DNode.text "y"]]) :=
  ⟨rfl, rfl⟩

mutual

def hasDocDivN : DNode → Bool
  | DNode.text _ => false
  | DNode.elem t a cs => isClassDiv "document" (DNode.elem t a cs) || hasDocDivF cs

/-- Whether a div.document occurs anywhere in the forest. -/
def hasDocDivF : List DNode → Bool
  | [] => false
  | n :: rest => hasDocDivN n || hasDocDivF rest

end

mutual

theorem unwrapN_id : ∀ n : DNode, hasDocDivN n = false → unwrapN n = (n, false)
  | DNode.text _, _ => rfl
  | DNode.elem t a cs, h => by
    have h2 : hasDocDivF cs = false := by
      rw [hasDocDivN] at h
      exact (Bool.or_eq_false_iff.mp h).2
    rw [unwrapN, unwrapF_id cs h2]

theorem unwrapF_id : ∀ l : List DNode, hasDocDivF l = false → unwrapF l = (l, false)
  | [], _ => rfl
  | n :: rest, h => by
    have h0 : hasDocDivN n = false ∧ hasDocDivF rest = false := by
      rw [hasDocDivF] at h
      exact Bool.or_eq_false_iff.mp h
    have hd : isClassDiv "document" n = false := by
      cases n with
      | text s => rfl
      | elem t a cs =>
        have := h0.1
        rw [hasDocDivN] at this
        exact (Bool.or_eq_false_iff.mp this).1
    rw [unwrapF, if_neg (by simp [hd]), unwrapN_id n h0.1, unwrapF_id rest h0.2]
    simp

end

theorem convertLoop_id :
    ∀ (l : List DNode) (acc : List DNode), (∀ n ∈ l, isListPara n = false) →
      convertLoop l [] acc = acc ++ l := by
  intro l
  induction l with
  | nil => intro acc _; simp [convertLoop, bufferToList, initB]
  | cons n rest ih =>
    intro acc h
    have hn := h n (by simp)
    rw [convertLoop, if_neg (by simp [hn])]
    by_cases hws : isWsText n = true
    · rw [if_pos hws]
      simp only [List.isEmpty_nil, if_pos]
      rw [ih (acc ++ [n]) (fun u hu => h u (by simp [hu]))]
      simp
    · rw [if_neg hws]
      have hb : (match bufferToList [] with
          | some l => [l]
          | none => ([] : List DNode)) = [] := rfl
      rw [hb]
      rw [ih (acc ++ [] ++ [n]) (fun u hu => h u (by simp [hu]))]
      simp

/-- C8 counterexample: an input holding a document-class div with a
section-class child div (and no list-marker paragraph anywhere) is not left
unchanged by the List Reconstructor: the section's children are hoisted out
and the two wrapper divs are discarded, so the output tree differs from the
input even modulo whitespace (the input has two div elements, the output
none). -/
theorem C8_counterexample :
    convertMsoListToNestedLists
        [DNode.elem "div" [("class", "document")]
          [DNode.elem "div" [("class", "section")] [DNode.elem "p" [] [DNode.text "x"]]]]
      = [DNode.elem "p" [] [DNode.text "x"]] ∧
    countTagF "div"
        [DNode.elem "div" [("class", "document")]
          [DNode.elem "div" [("class", "section")] [DNode.elem "p" [] [DNode.text "x"]]]] = 2 ∧
    countTagF "div"
        (convertMsoListToNestedLists
          [DNode.elem "div" [("class", "document")]
            [DNode.elem "div" [("class", "section")] [DNode.elem "p" [] [DNode.text "x"]]]]) = 0 :=
  ⟨rfl, rfl, rfl⟩

/-- C8 amended: on every input forest that contains no list-marker
paragraph among the body's children and no document-class wrapper div
anywhere, convertMsoListToNestedLists is the identity: the output tree is
exactly the input tree (whitespace text nodes included). The document-div
proviso is forced: the stage also hoists div.section content out of a
div.document even when no list markers exist. -/
theorem C8_amended (forest : List DNode)
    (hdoc : hasDocDivF forest = false)
    (hpara : ∀ n ∈ forest, isListPara n = false) :
    convertMsoListToNestedLists forest = forest := by
  rw [convertMsoListToNestedLists, unwrapF_id forest hdoc]
  simpa using convertLoop_id forest [] hpara

/-- Witness for C8_amended: a plain paragraph forest passes through
unchanged. -/
theorem C8_amended_witness :
    convertMsoListToNestedLists
        [DNode.elem "p" [] [DNode.text "hello"], DNode.text " "]
      = [DNode.elem "p" [] [DNode.text "hello"], DNode.text " "] :=
  C8_amended [DNode.elem "p" [] [DNode.text "hello"], DNode.text " "]
    (by decide) (by decide)
